import Mathlib

/-!
Verification of the archive-integrity checker in `src/main.py` of
epklein/check-zip-integrity.

The script is embedded shallowly:

* A file system path (a file name under the scanned directory, with the tree
  flattened) is a `List Char`, written `Path`.  Python string operations
  (`in`, `endswith`, `rsplit`, `replace`, `lower`) become functions on
  `List Char`.
* The ambient system (files on disk, the resolved external `7z` command and
  the observable outcomes of the external collaborators: `subprocess.run`,
  `zipfile`, `py7zr`) is a record `Env`; the functions of the script are
  deterministic functions of this record.
* `find_archives`, `test_archive`, `test_archive_with_7z` and `main` mirror
  their Python namesakes line by line; iteration of the discovery loops is a
  `List.foldl` over the glob-filtered file list, threading the
  `(archives, seen_split_bases)` state.
-/

namespace CheckZip

/-- A file name under the scanned directory, as its character string. -/
abbrev Path := List Char

/-- The literal ".7z". -/
def s7z : Path := ['.', '7', 'z']

/-- The literal ".7z.". -/
def s7zDot : Path := ['.', '7', 'z', '.']

/-- The literal ".001". -/
def s001 : Path := ['.', '0', '0', '1']

/-- The literal ".zip". -/
def sZip : Path := ['.', 'z', 'i', 'p']

/-- The literal ".z01". -/
def sZ01 : Path := ['.', 'z', '0', '1']

/-- The literal ".". -/
def sDot : Path := ['.']

/-- The literal ".z". -/
def sDotZ : Path := ['.', 'z']

/-- Python `s.rsplit(sep, 1)` for nonempty `sep`: the pair of the parts before
and after the last occurrence of `sep` in `s`, or `none` when `sep` does not
occur in `s`. -/
def rsplitLast (sep : Path) : Path → Option (Path × Path)
  | [] => none
  | c :: rest =>
    match rsplitLast sep rest with
    | some (b, t) => some (c :: b, t)
    | none =>
      if sep <+: (c :: rest) then some ([], (c :: rest).drop sep.length) else none

/-- Python `s.rsplit(sep, 1)[0]`: the part before the last occurrence of
`sep`, or `s` itself when `sep` does not occur. -/
def rsplitPre (sep s : Path) : Path :=
  match rsplitLast sep s with
  | some (b, _) => b
  | none => s

/-- Python `str.lower()`, restricted to the ASCII case mapping (all names in
play are ASCII). -/
def pyLower (p : Path) : Path := p.map Char.toLower

/-- Worker for `pyReplace`; `fuel` only bounds the recursion depth
(`s.length` always suffices, see `pyReplace`). -/
def replaceAll (sub repl : Path) : Nat → Path → Path
  | _, [] => []
  | 0, s => s
  | fuel + 1, c :: rest =>
    if sub <+: (c :: rest) then
      repl ++ replaceAll sub repl fuel ((c :: rest).drop sub.length)
    else c :: replaceAll sub repl fuel rest

/-- Python `s.replace(sub, repl)` for nonempty `sub`: replace every
non-overlapping occurrence, scanning left to right. -/
def pyReplace (sub repl s : Path) : Path := replaceAll sub repl s.length s

/-- Python `f'.z{i:02d}'` for `1 ≤ i ≤ 99`. -/
def zTag (i : Nat) : Path := ['.', 'z', Char.ofNat (48 + i / 10), Char.ofNat (48 + i % 10)]

/-- pathlib pattern `*.7z*`: the name contains ".7z". -/
def glob7z (f : Path) : Bool := decide (s7z <:+: f)

/-- pathlib pattern `*.zip`: the name ends with ".zip". -/
def globZip (f : Path) : Bool := decide (sZip <:+ f)

/-- pathlib pattern `*.z[0-9][0-9]`: the name ends with ".z" and two digits. -/
def globZdd (f : Path) : Bool :=
  match f.reverse with
  | d2 :: d1 :: z :: dot :: _ => dot == '.' && z == 'z' && d1.isDigit && d2.isDigit
  | _ => false

/-- One iteration of the 7z discovery loop (src/main.py lines 52-68) on the
state `(archives, seen_split_bases)`: a name containing ".7z." is a split
volume, kept only when it ends in ".001" (recording its base, the part before
the final "."); any other ".7z" name is added directly. -/
def step7z (st : Finset Path × Finset Path) (file : Path) : Finset Path × Finset Path :=
  if s7zDot <:+: file then
    let base := rsplitPre sDot file
    if s001 <:+ file then (insert file st.1, insert base st.2) else st
  else (insert file st.1, st.2)

/-- One iteration of the multi-volume ZIP loop (src/main.py lines 76-94):
for a fragment whose base (the part before the last ".z") is unseen, prefer
the sibling "base.zip" if it exists on disk (`fs`), else "base.z01" if it
exists, recording the base either way. -/
def stepZ (fs : List Path) (st : Finset Path × Finset Path) (file : Path) :
    Finset Path × Finset Path :=
  let base := rsplitPre sDotZ file
  if base ∈ st.2 then st
  else if (base ++ sZip) ∈ fs then (insert (base ++ sZip) st.1, insert base st.2)
  else if (base ++ sZ01) ∈ fs then (insert (base ++ sZ01) st.1, insert base st.2)
  else st

/-- find_archives (src/main.py lines 46-96): `fs` lists the file names under
the scanned directory; each `rglob` loop is a fold over the glob-filtered
list, and `os.path.exists` is membership in `fs`. -/
def find_archives (fs : List Path) : Finset Path :=
  let st1 := (fs.filter glob7z).foldl step7z (∅, ∅)
  let arch2 := (fs.filter globZip).foldl (fun acc file => insert file acc) st1.1
  let st3 := (fs.filter globZdd).foldl (stepZ fs) (arch2, st1.2)
  st3.1

/-- Outcome of `subprocess.run` on the external tool: a process exit code, a
`TimeoutExpired`, or any other exception. -/
inductive SubprocResult where
  | exited (returncode : Int)
  | timeout
  | err
deriving DecidableEq

/-- Outcome of opening an archive with an embedded decoder (zipfile / py7zr)
and calling `testzip()`: `ok` carries the value returned by `testzip()`
(`none` = intact, `some name` = first bad entry); `badFile` is the format
error (`BadZipFile` / `Bad7zFile`); `err` is any other exception (I/O error,
permissions, missing file). -/
inductive DecodeResult where
  | ok (firstBad : Option Path)
  | badFile
  | err
deriving DecidableEq

/-- The ambient system consumed by the script: the files on disk, the
resolved 7z command (`none` when neither `7z` nor `7z.exe` is on the search
path, mirroring get_7z_command), and the observable outcomes of the external
collaborators, as functions of their inputs. -/
structure Env where
  files : List Path
  which7z : Option Path
  run7z : Path → Path → Nat → SubprocResult
  zipTest : Path → DecodeResult
  sevenTest : Path → DecodeResult

/-- is_7z_available (src/main.py lines 11-13). -/
def is_7z_available (e : Env) : Bool := e.which7z.isSome

/-- test_archive_with_7z (src/main.py lines 23-44): resolve the command
(`False` when absent), run its test subcommand with a 300-second (5-minute)
timeout; exit code 0 is success, any other exit code, a timeout or an
exception is failure. -/
def test_archive_with_7z (e : Env) (p : Path) : Bool :=
  match e.which7z with
  | none => false
  | some cmd =>
    match e.run7z cmd p 300 with
    | .exited code => code == 0
    | .timeout => false
    | .err => false

/-- is_multivolume_7z check (src/main.py line 103), on the lowercased name. -/
def is_multivolume_7z (p : Path) : Bool :=
  decide (s7zDot <:+: pyLower p) && decide (s001 <:+ pyLower p)

/-- base_path (src/main.py line 109): the original (not lowercased) name with
every occurrence of ".zip" and then of ".z01" deleted. -/
def base_path (p : Path) : Path := pyReplace sZ01 [] (pyReplace sZip [] p)

/-- is_multivolume_zip check (src/main.py lines 106-113): the lowercased name
ends in ".zip" or ".z01", and some sibling `base_path.zNN` (NN = 01..99)
exists on disk. -/
def is_multivolume_zip (e : Env) (p : Path) : Bool :=
  (decide (sZip <:+ pyLower p) || decide (sZ01 <:+ pyLower p)) &&
    (List.range' 1 99).any (fun i => decide ((base_path p ++ zTag i) ∈ e.files))

/-- test_archive (src/main.py lines 98-161). -/
def test_archive (e : Env) (p : Path) : Bool :=
  if is_multivolume_7z p || is_multivolume_zip e p then
    if is_7z_available e then test_archive_with_7z e p else false
  else if sZip <:+ pyLower p then
    match e.zipTest p with
    | .ok firstBad => firstBad.isNone
    | .badFile => if is_7z_available e then test_archive_with_7z e p else false
    | .err => if is_7z_available e then test_archive_with_7z e p else false
  else if s7z <:+: pyLower p then
    match e.sevenTest p with
    | .ok firstBad => firstBad.isNone
    | .badFile => false
    | .err => false
  else false

/-- The per-archive loop of main (src/main.py lines 185-209): accumulate the
passed and failed lists in iteration order. -/
def runBatch (e : Env) (l : List Path) : List Path × List Path :=
  l.foldl
    (fun res a => if test_archive e a then (res.1 ++ [a], res.2) else (res.1, res.2 ++ [a]))
    ([], [])

/-- The command-line inputs: whether the directory argument names a directory,
and the directory's contents together with the ambient system. -/
structure World where
  isDir : Bool
  env : Env

/-- main (src/main.py lines 163-222), returning the process exit code.  The
`--recursive` flag is parsed but never read, so it is an unused argument
here.  Python's `sorted(archives)` is `Finset.sort` by the lexicographic
order on names. -/
def main (w : World) (recursiveFlag : Bool) : Int :=
  if !w.isDir then 1
  else
    let archives := find_archives w.env.files
    if archives = ∅ then 0
    else
      let results := runBatch w.env (archives.sort (· ≤ ·))
      if results.2 ≠ [] then 1 else 0

/-! ### Generic facts about the string operations -/

/-- A digit character is none of the letters appearing in the archive
suffixes. -/
lemma digit_ne_of_isDigit {d : Char} (h : d.isDigit = true) :
    d ≠ '.' ∧ d ≠ 'z' ∧ d ≠ 'i' ∧ d ≠ 'p' := by
  refine ⟨?_, ?_, ?_, ?_⟩ <;> rintro rfl <;> exact absurd h (by decide)

/-- A list all of whose members are digits contains no non-digit. -/
lemma not_digit_mem {t : Path} (hdig : t.all Char.isDigit = true) {c : Char}
    (hc : c.isDigit = false) (hmem : c ∈ t) : False := by
  have := List.all_eq_true.mp hdig c hmem
  simp [this] at hc

/-- An occurrence of `pat` in `B ++ t` lies in `B`, lies in `t`, or straddles
the boundary: `pat` splits as `p1 ++ p2` with `p1` a nonempty suffix of `B`
and `p2` a nonempty prefix of `t`. -/
lemma infix_append_split {pat B t : Path} (h : pat <:+: B ++ t) :
    pat <:+: B ∨ pat <:+: t ∨
      ∃ p1 p2, pat = p1 ++ p2 ∧ p1 ≠ [] ∧ p2 ≠ [] ∧ p1 <:+ B ∧ p2 <+: t := by
  obtain ⟨u, v, huv⟩ := h
  rw [List.append_assoc] at huv
  rcases List.append_eq_append_iff.mp huv with ⟨a, hB, ha2⟩ | ⟨c, _, ht⟩
  · rcases List.append_eq_append_iff.mp ha2 with ⟨b, ha', hv⟩ | ⟨c2, hpat, ht2⟩
    · exact Or.inl ⟨u, b, by rw [hB, ha', ← List.append_assoc]⟩
    · rcases eq_or_ne a [] with rfl | hane
      · refine Or.inr (Or.inl ⟨[], v, ?_⟩)
        rw [List.nil_append] at hpat
        rw [← hpat] at ht2
        simpa using ht2.symm
      · rcases eq_or_ne c2 [] with rfl | hc2ne
        · refine Or.inl ⟨u, [], ?_⟩
          rw [List.append_nil] at hpat
          rw [← hpat] at hB
          simpa using hB.symm
        · exact Or.inr (Or.inr ⟨a, c2, hpat, hane, hc2ne, ⟨u, hB.symm⟩, ⟨v, ht2.symm⟩⟩)
  · exact Or.inr (Or.inl ⟨c, v, by rw [List.append_assoc, ← ht]⟩)

/-- All decompositions of a three-element list as an append. -/
lemma eq_append3 {p1 p2 : Path} {a b c : Char} (h : p1 ++ p2 = [a, b, c]) :
    p1 = [] ∧ p2 = [a, b, c] ∨ p1 = [a] ∧ p2 = [b, c] ∨ p1 = [a, b] ∧ p2 = [c] ∨
      p1 = [a, b, c] ∧ p2 = [] := by
  rcases p1 with _ | ⟨x, _ | ⟨y, _ | ⟨z, _ | ⟨w, r⟩⟩⟩⟩ <;> simp_all

/-- All decompositions of a four-element list as an append. -/
lemma eq_append4 {p1 p2 : Path} {a b c d : Char} (h : p1 ++ p2 = [a, b, c, d]) :
    p1 = [] ∧ p2 = [a, b, c, d] ∨ p1 = [a] ∧ p2 = [b, c, d] ∨ p1 = [a, b] ∧ p2 = [c, d] ∨
      p1 = [a, b, c] ∧ p2 = [d] ∨ p1 = [a, b, c, d] ∧ p2 = [] := by
  rcases p1 with _ | ⟨x, _ | ⟨y, _ | ⟨z, _ | ⟨w, _ | ⟨v, r⟩⟩⟩⟩⟩ <;> simp_all

/-- `rsplitLast` returns `none` exactly on strings without an occurrence. -/
lemma rsplitLast_eq_none {sep s : Path} (h : ¬ sep <:+: s) : rsplitLast sep s = none := by
  induction s with
  | nil => rfl
  | cons c rest ih =>
    have h1 : ¬ sep <:+: rest := fun hi => h (List.infix_cons hi)
    have h2 : ¬ sep <+: c :: rest := fun hp => h (List.IsPrefix.isInfix hp)
    simp [rsplitLast, ih h1, h2]

/-- When the only occurrence region of `sep` in `q ++ sep ++ t` starts at
position `q.length` (no occurrence begins later), `rsplitLast` splits there. -/
lemma rsplitLast_last_occ {sep q t : Path} (hsep : sep ≠ [])
    (h : ¬ sep <:+: List.drop 1 (sep ++ t)) :
    rsplitLast sep (q ++ (sep ++ t)) = some (q, t) := by
  induction q with
  | nil =>
    rcases sep with _ | ⟨c, sep'⟩
    · exact absurd rfl hsep
    · have h1 : rsplitLast (c :: sep') (sep' ++ t) = none :=
        rsplitLast_eq_none (by simpa using h)
      have h2 : (c :: sep') <+: ((c :: sep') ++ t) := List.prefix_append _ _
      have h3 : ((c :: sep') ++ t).drop (c :: sep').length = t := List.drop_left _ _
      simpa [rsplitLast, h1, h3] using fun hn => absurd h2 hn
  | cons x q ih =>
    simp only [List.cons_append, rsplitLast, List.append_eq, ih]

/-- `rsplitPre` of a string ending in its only late occurrence of `sep`. -/
lemma rsplitPre_last_occ {sep q t : Path} (hsep : sep ≠ [])
    (h : ¬ sep <:+: List.drop 1 (sep ++ t)) :
    rsplitPre sep (q ++ (sep ++ t)) = q := by
  simp [rsplitPre, rsplitLast_last_occ hsep h]

/-- The base of a name ending in ".001": the part before the final dot. -/
lemma rsplitPre_dot001 (q : Path) : rsplitPre sDot (q ++ s001) = q := by
  have he : (s001 : Path) = sDot ++ ['0', '0', '1'] := rfl
  rw [he]
  exact rsplitPre_last_occ (by decide) (by decide)

/-- The base of a name ending in ".z" and two digits: the part before that
".z". -/
lemma rsplitPre_zdd (q : Path) {d1 d2 : Char} (h1 : d1.isDigit = true)
    (h2 : d2.isDigit = true) :
    rsplitPre sDotZ (q ++ ['.', 'z', d1, d2]) = q := by
  have he : (['.', 'z', d1, d2] : Path) = sDotZ ++ [d1, d2] := rfl
  rw [he]
  refine rsplitPre_last_occ (by decide) ?_
  intro hocc
  have hdot : '.' ∈ ['z', d1, d2] := hocc.subset (by decide)
  simp only [List.mem_cons, List.not_mem_nil, or_false] at hdot
  rcases hdot with h | h | h
  · exact absurd h (by decide)
  · exact (digit_ne_of_isDigit h1).1 h.symm
  · exact (digit_ne_of_isDigit h2).1 h.symm

/-- A name made of a base, a dot and a nonempty all-digit tail does not end
in ".zip". -/
lemma digits_not_zip_suffix {B t : Path} (hne : t ≠ []) (hdig : t.all Char.isDigit = true) :
    ¬ sZip <:+ (B ++ '.' :: t) := by
  intro h
  rw [← List.reverse_prefix] at h
  have hz : (sZip : Path).reverse = ['p', 'i', 'z', '.'] := rfl
  rw [hz] at h
  rcases ht : t.reverse with _ | ⟨c, r⟩
  · exact hne (List.reverse_eq_nil_iff.mp ht)
  · have hrev : (B ++ '.' :: t).reverse = c :: (r ++ '.' :: B.reverse) := by
      rw [List.reverse_append, List.reverse_cons, ht]
      simp
    rw [hrev, List.cons_prefix_cons] at h
    have hcmem : c ∈ t := List.mem_reverse.mp (by rw [ht]; exact List.mem_cons_self _ _)
    exact not_digit_mem hdig (by rw [← h.1]; decide) hcmem

/-- A name made of a base and ".z" plus two digits does not end in ".zip". -/
lemma zdd_not_zip_suffix {B : Path} {d1 d2 : Char} (hd2 : d2.isDigit = true) :
    ¬ sZip <:+ (B ++ ['.', 'z', d1, d2]) := by
  intro h
  rw [← List.reverse_prefix] at h
  have hz : (sZip : Path).reverse = ['p', 'i', 'z', '.'] := rfl
  have hrev : (B ++ ['.', 'z', d1, d2]).reverse = d2 :: d1 :: 'z' :: '.' :: B.reverse := by
    simp [List.reverse_append]
  rw [hz, hrev, List.cons_prefix_cons] at h
  exact (digit_ne_of_isDigit hd2).2.2.2 h.1.symm

/-- ".7z" does not occur in a base without ".7z" followed by a dot and an
all-digit tail. -/
lemma not7z_dot_digits {B t : Path} (hB : ¬ s7z <:+: B) (hdig : t.all Char.isDigit = true) :
    ¬ s7z <:+: (B ++ '.' :: t) := by
  intro h
  rcases infix_append_split h with h | h | ⟨p1, p2, hsplit, hp1, hp2, _, hp⟩
  · exact hB h
  · obtain ⟨u, v, huv⟩ := h
    rcases u with _ | ⟨x, u'⟩
    · simp only [List.nil_append, s7z, List.cons_append, List.cons.injEq] at huv
      have hzmem : 'z' ∈ t := by
        rw [← huv.2]
        simp
      exact not_digit_mem hdig (by decide) hzmem
    · simp only [List.cons_append, List.cons.injEq] at huv
      have hdmem : '.' ∈ t := by
        rw [← huv.2]
        simp [s7z]
      exact not_digit_mem hdig (by decide) hdmem
  · have hs3 : p1 ++ p2 = ['.', '7', 'z'] := hsplit.symm
    rcases eq_append3 hs3 with ⟨h1, _⟩ | ⟨_, h2⟩ | ⟨_, h2⟩ | ⟨_, h2⟩
    · exact hp1 h1
    · rw [h2, List.cons_prefix_cons] at hp
      exact absurd hp.1 (by decide)
    · rw [h2, List.cons_prefix_cons] at hp
      exact absurd hp.1 (by decide)
    · exact hp2 h2

/-- ".7z" does not occur in a base without ".7z" followed by ".z" and two
digits. -/
lemma not7z_zdd {B : Path} {d1 d2 : Char} (hB : ¬ s7z <:+: B) :
    ¬ s7z <:+: (B ++ ['.', 'z', d1, d2]) := by
  intro h
  rcases infix_append_split h with h | h | ⟨p1, p2, hsplit, hp1, hp2, _, hp⟩
  · exact hB h
  · obtain ⟨u, v, huv⟩ := h
    rcases u with _ | ⟨x, _ | ⟨y, _ | ⟨z', _ | ⟨w, r⟩⟩⟩⟩ <;>
      simp [s7z, List.cons_append] at huv
  · have hs3 : p1 ++ p2 = ['.', '7', 'z'] := hsplit.symm
    rcases eq_append3 hs3 with ⟨h1, _⟩ | ⟨_, h2⟩ | ⟨_, h2⟩ | ⟨_, h2⟩
    · exact hp1 h1
    · rw [h2, List.cons_prefix_cons] at hp
      exact absurd hp.1 (by decide)
    · rw [h2, List.cons_prefix_cons] at hp
      exact absurd hp.1 (by decide)
    · exact hp2 h2

/-- ".7z" does not occur in a base without ".7z" followed by ".zip". -/
lemma not7z_zip {B : Path} (hB : ¬ s7z <:+: B) : ¬ s7z <:+: (B ++ sZip) := by
  intro h
  rcases infix_append_split h with h | h | ⟨p1, p2, hsplit, hp1, hp2, _, hp⟩
  · exact hB h
  · exact absurd h (by decide)
  · have hs3 : p1 ++ p2 = ['.', '7', 'z'] := hsplit.symm
    rcases eq_append3 hs3 with ⟨h1, _⟩ | ⟨_, h2⟩ | ⟨_, h2⟩ | ⟨_, h2⟩
    · exact hp1 h1
    · rw [h2] at hp
      exact absurd hp (by decide)
    · rw [h2] at hp
      exact absurd hp (by decide)
    · exact hp2 h2

/-- A base recorded from a ".001" split volume contains ".7z": an occurrence
of ".7z." in `b ++ ".001"` yields an occurrence of ".7z" in `b`. -/
lemma has7z_of_dotted001 {b : Path} (h : s7zDot <:+: (b ++ s001)) : s7z <:+: b := by
  rcases infix_append_split h with h | h | ⟨p1, p2, hsplit, hp1, hp2, hs, hp⟩
  · exact (show s7z <:+: s7zDot by decide).trans h
  · exact absurd h (by decide)
  · have hs4 : p1 ++ p2 = ['.', '7', 'z', '.'] := hsplit.symm
    rcases eq_append4 hs4 with ⟨h1, _⟩ | ⟨_, h2⟩ | ⟨_, h2⟩ | ⟨h1, _⟩ | ⟨_, h2⟩
    · exact absurd h1 hp1
    · rw [h2] at hp
      exact absurd hp (by decide)
    · rw [h2] at hp
      exact absurd hp (by decide)
    · rw [h1] at hs
      exact List.IsSuffix.isInfix hs
    · exact absurd h2 hp2

/-- Matching a dot-digit-tailed name against a base followed by four fixed
characters starting with a dot: when neither of the two middle characters is
a dot, the tails align exactly. -/
lemma dot_digits_eq4 {B B' t : Path} {b c d : Char} (hne : t ≠ [])
    (hdig : t.all Char.isDigit = true)
    (heq : B ++ '.' :: t = B' ++ ['.', b, c, d])
    (hb : b ≠ '.') (hc : c ≠ '.') :
    B = B' ∧ t = [b, c, d] := by
  have hrev := congrArg List.reverse heq
  simp only [List.reverse_append, List.reverse_cons, List.reverse_nil, List.append_assoc,
    List.nil_append, List.cons_append] at hrev
  rcases ht : t.reverse with _ | ⟨r1, _ | ⟨r2, _ | ⟨r3, _ | ⟨r4, rr⟩⟩⟩⟩
  · exact absurd (List.reverse_eq_nil_iff.mp ht) hne
  · rw [ht] at hrev
    simp only [List.cons_append, List.nil_append, List.cons.injEq] at hrev
    exact absurd hrev.2.1.symm hc
  · rw [ht] at hrev
    simp only [List.cons_append, List.nil_append, List.cons.injEq] at hrev
    exact absurd hrev.2.2.1.symm hb
  · rw [ht] at hrev
    simp only [List.cons_append, List.nil_append, List.cons.injEq, true_and] at hrev
    obtain ⟨h1, h2, h3, h5⟩ := hrev
    have htval : t = [r3, r2, r1] := by
      rw [← t.reverse_reverse, ht]
      rfl
    refine ⟨?_, ?_⟩
    · rw [← B.reverse_reverse, ← B'.reverse_reverse, h5]
    · rw [htval, h1, h2, h3]
  · rw [ht] at hrev
    simp only [List.cons_append, List.nil_append, List.cons.injEq] at hrev
    have hr4 : r4 ∈ t := List.mem_reverse.mp (by rw [ht]; simp)
    have hr4d : r4 = '.' := hrev.2.2.2.1
    rw [hr4d] at hr4
    exact (not_digit_mem hdig (by decide) hr4).elim

/-! ### A closed characterization of discovery -/

/-- An occurrence of ".7z." implies one of ".7z". -/
lemma has7z_of_dotted {g : Path} (h : s7zDot <:+: g) : s7z <:+: g :=
  (show s7z <:+: s7zDot by decide).trans h

/-- Membership in the archive set accumulated by the 7z loop. -/
lemma mem_foldl_step7z_fst (l : List Path) (st : Finset Path × Finset Path) (p : Path) :
    p ∈ (l.foldl step7z st).1 ↔
      p ∈ st.1 ∨ (p ∈ l ∧ (s7zDot <:+: p → s001 <:+ p)) := by
  induction l generalizing st with
  | nil => simp
  | cons f l ih =>
    rw [List.foldl_cons, ih]
    by_cases h1 : s7zDot <:+: f
    · by_cases h2 : s001 <:+ f
      · simp only [step7z, if_pos h1, if_pos h2, Finset.mem_insert, List.mem_cons]
        constructor
        · rintro ((rfl | hst) | hl)
          · exact Or.inr ⟨Or.inl rfl, fun _ => h2⟩
          · exact Or.inl hst
          · exact Or.inr ⟨Or.inr hl.1, hl.2⟩
        · rintro (hst | ⟨rfl | hl, hc⟩)
          · exact Or.inl (Or.inr hst)
          · exact Or.inl (Or.inl rfl)
          · exact Or.inr ⟨hl, hc⟩
      · simp only [step7z, if_pos h1, if_neg h2, List.mem_cons]
        constructor
        · rintro (hst | hl)
          · exact Or.inl hst
          · exact Or.inr ⟨Or.inr hl.1, hl.2⟩
        · rintro (hst | ⟨rfl | hl, hc⟩)
          · exact Or.inl hst
          · exact absurd (hc h1) h2
          · exact Or.inr ⟨hl, hc⟩
    · simp only [step7z, if_neg h1, Finset.mem_insert, List.mem_cons]
      constructor
      · rintro ((rfl | hst) | hl)
        · exact Or.inr ⟨Or.inl rfl, fun hd => absurd hd h1⟩
        · exact Or.inl hst
        · exact Or.inr ⟨Or.inr hl.1, hl.2⟩
      · rintro (hst | ⟨rfl | hl, hc⟩)
        · exact Or.inl (Or.inr hst)
        · exact Or.inl (Or.inl rfl)
        · exact Or.inr ⟨hl, hc⟩

/-- Membership in seen_split_bases after the 7z loop. -/
lemma mem_foldl_step7z_snd (l : List Path) (st : Finset Path × Finset Path) (b : Path) :
    b ∈ (l.foldl step7z st).2 ↔
      b ∈ st.2 ∨ ∃ f ∈ l, s7zDot <:+: f ∧ s001 <:+ f ∧ rsplitPre sDot f = b := by
  induction l generalizing st with
  | nil => simp
  | cons f l ih =>
    rw [List.foldl_cons, ih]
    by_cases h1 : s7zDot <:+: f
    · by_cases h2 : s001 <:+ f
      · simp only [step7z, if_pos h1, if_pos h2, Finset.mem_insert, List.mem_cons]
        constructor
        · rintro ((rfl | hst) | ⟨g, hg, hc⟩)
          · exact Or.inr ⟨f, Or.inl rfl, h1, h2, rfl⟩
          · exact Or.inl hst
          · exact Or.inr ⟨g, Or.inr hg, hc⟩
        · rintro (hst | ⟨g, rfl | hg, hc⟩)
          · exact Or.inl (Or.inr hst)
          · exact Or.inl (Or.inl hc.2.2.symm)
          · exact Or.inr ⟨g, hg, hc⟩
      · simp only [step7z, if_pos h1, if_neg h2, List.mem_cons]
        constructor
        · rintro (hst | ⟨g, hg, hc⟩)
          · exact Or.inl hst
          · exact Or.inr ⟨g, Or.inr hg, hc⟩
        · rintro (hst | ⟨g, rfl | hg, hc⟩)
          · exact Or.inl hst
          · exact absurd hc.2.1 h2
          · exact Or.inr ⟨g, hg, hc⟩
    · simp only [step7z, if_neg h1, List.mem_cons]
      constructor
      · rintro (hst | ⟨g, hg, hc⟩)
        · exact Or.inl hst
        · exact Or.inr ⟨g, Or.inr hg, hc⟩
      · rintro (hst | ⟨g, rfl | hg, hc⟩)
        · exact Or.inl hst
        · exact absurd hc.1 h1
        · exact Or.inr ⟨g, hg, hc⟩

/-- Membership after the plain-zip loop. -/
lemma mem_foldl_insert (l : List Path) (st : Finset Path) (p : Path) :
    p ∈ l.foldl (fun acc file => insert file acc) st ↔ p ∈ st ∨ p ∈ l := by
  induction l generalizing st with
  | nil => simp
  | cons f l ih =>
    rw [List.foldl_cons, ih]
    simp only [Finset.mem_insert, List.mem_cons]
    tauto

/-- The representative the multi-volume ZIP loop would pick for base `B`:
the terminal zip when it exists on disk, else the first volume when it
exists, else nothing.  (A device for the characterization; `stepZ_eq` proves
it matches the loop body.) -/
def zChoice (fs : List Path) (B : Path) : Option Path :=
  if (B ++ sZip) ∈ fs then some (B ++ sZip)
  else if (B ++ sZ01) ∈ fs then some (B ++ sZ01)
  else none

/-- The multi-volume ZIP loop body, restated through `zChoice`. -/
lemma stepZ_eq (fs : List Path) (st : Finset Path × Finset Path) (f : Path) :
    stepZ fs st f =
      if rsplitPre sDotZ f ∈ st.2 then st
      else
        match zChoice fs (rsplitPre sDotZ f) with
        | some q => (insert q st.1, insert (rsplitPre sDotZ f) st.2)
        | none => st := by
  unfold stepZ zChoice
  by_cases h1 : rsplitPre sDotZ f ∈ st.2
  · simp [h1]
  · by_cases h2 : (rsplitPre sDotZ f ++ sZip) ∈ fs
    · simp [h1, h2]
    · by_cases h3 : (rsplitPre sDotZ f ++ sZ01) ∈ fs
      · simp [h1, h2, h3]
      · simp [h1, h2, h3]

/-- Membership in the archive set accumulated by the multi-volume ZIP loop.
The loop is order-independent: a fragment acts iff its base is not yet seen,
and what it adds depends only on the base and the disk, so the fold equals a
union over the fragments of the per-base choice. -/
lemma mem_foldl_stepZ_fst (fs l : List Path) (st : Finset Path × Finset Path) (p : Path) :
    p ∈ (l.foldl (stepZ fs) st).1 ↔
      p ∈ st.1 ∨
        ∃ f ∈ l, rsplitPre sDotZ f ∉ st.2 ∧ zChoice fs (rsplitPre sDotZ f) = some p := by
  induction l generalizing st with
  | nil => simp
  | cons f l ih =>
    rw [List.foldl_cons, ih, stepZ_eq]
    by_cases h1 : rsplitPre sDotZ f ∈ st.2
    · simp only [if_pos h1, List.mem_cons]
      constructor
      · rintro (hst | ⟨g, hg, hgs, hgc⟩)
        · exact Or.inl hst
        · exact Or.inr ⟨g, Or.inr hg, hgs, hgc⟩
      · rintro (hst | ⟨g, rfl | hg, hgs, hgc⟩)
        · exact Or.inl hst
        · exact absurd h1 hgs
        · exact Or.inr ⟨g, hg, hgs, hgc⟩
    · cases hch : zChoice fs (rsplitPre sDotZ f) with
      | none =>
        simp only [if_neg h1, hch, List.mem_cons]
        constructor
        · rintro (hst | ⟨g, hg, hgs, hgc⟩)
          · exact Or.inl hst
          · exact Or.inr ⟨g, Or.inr hg, hgs, hgc⟩
        · rintro (hst | ⟨g, rfl | hg, hgs, hgc⟩)
          · exact Or.inl hst
          · rw [hch] at hgc
            cases hgc
          · exact Or.inr ⟨g, hg, hgs, hgc⟩
      | some q =>
        simp only [if_neg h1, hch, List.mem_cons, Finset.mem_insert]
        constructor
        · rintro ((rfl | hst) | ⟨g, hg, hgs, hgc⟩)
          · exact Or.inr ⟨f, Or.inl rfl, h1, hch⟩
          · exact Or.inl hst
          · exact Or.inr ⟨g, Or.inr hg, fun hm => hgs (Or.inr hm), hgc⟩
        · rintro (hst | ⟨g, rfl | hg, hgs, hgc⟩)
          · exact Or.inl (Or.inr hst)
          · rw [hch] at hgc
            injection hgc with hpq
            exact Or.inl (Or.inl hpq.symm)
          · by_cases hbg : rsplitPre sDotZ g = rsplitPre sDotZ f
            · rw [hbg, hch] at hgc
              injection hgc with hpq
              exact Or.inl (Or.inl hpq.symm)
            · refine Or.inr ⟨g, hg, ?_, hgc⟩
              intro hmem
              rcases hmem with h | h
              · exact hbg h
              · exact hgs h

/-- The 7z loop recorded `b` in seen_split_bases. -/
def seenBase (fs : List Path) (b : Path) : Prop :=
  ∃ g ∈ fs, s7zDot <:+: g ∧ s001 <:+ g ∧ rsplitPre sDot g = b

/-- Closed characterization of discovery: a path is returned iff it is
(1) a ".7z" name that is not a non-first split volume, (2) a ".zip" name, or
(3) the per-base choice (terminal zip preferred, else first volume) for the
base of some ".zNN" fragment whose base the 7z loop did not already claim. -/
theorem mem_find_archives (fs : List Path) (p : Path) :
    p ∈ find_archives fs ↔
      (p ∈ fs ∧ s7z <:+: p ∧ (s7zDot <:+: p → s001 <:+ p)) ∨
      (p ∈ fs ∧ sZip <:+ p) ∨
      (∃ f ∈ fs, globZdd f = true ∧ ¬ seenBase fs (rsplitPre sDotZ f) ∧
        zChoice fs (rsplitPre sDotZ f) = some p) := by
  have hseen : ∀ b, (b ∈ ((fs.filter glob7z).foldl step7z (∅, ∅)).2) ↔ seenBase fs b := by
    intro b
    rw [mem_foldl_step7z_snd]
    simp only [Finset.not_mem_empty, false_or]
    constructor
    · rintro ⟨g, hg, h⟩
      exact ⟨g, (List.mem_filter.mp hg).1, h⟩
    · rintro ⟨g, hg, h1, h2, h3⟩
      refine ⟨g, List.mem_filter.mpr ⟨hg, ?_⟩, h1, h2, h3⟩
      simpa [glob7z] using has7z_of_dotted h1
  simp only [find_archives]
  rw [mem_foldl_stepZ_fst, mem_foldl_insert, mem_foldl_step7z_fst]
  constructor
  · rintro ((h7 | hzip) | ⟨f, hf, hnf, hch⟩)
    · rcases h7 with h7e | ⟨hmem, hC⟩
      · exact absurd h7e (Finset.not_mem_empty p)
      · rcases List.mem_filter.mp hmem with ⟨hin, hglob⟩
        exact Or.inl ⟨hin, by simpa [glob7z] using hglob, hC⟩
    · rcases List.mem_filter.mp hzip with ⟨hin, hglob⟩
      exact Or.inr (Or.inl ⟨hin, by simpa [globZip] using hglob⟩)
    · rcases List.mem_filter.mp hf with ⟨hin, hglob⟩
      refine Or.inr (Or.inr ⟨f, hin, hglob, ?_, hch⟩)
      intro hsb
      exact hnf ((hseen _).mpr hsb)
  · rintro (⟨hin, h7, hC⟩ | ⟨hin, hz⟩ | ⟨f, hin, hglob, hns, hch⟩)
    · refine Or.inl (Or.inl (Or.inr ⟨List.mem_filter.mpr ⟨hin, ?_⟩, hC⟩))
      simpa [glob7z] using h7
    · refine Or.inl (Or.inr (List.mem_filter.mpr ⟨hin, ?_⟩))
      simpa [globZip] using hz
    · refine Or.inr ⟨f, List.mem_filter.mpr ⟨hin, hglob⟩, ?_, hch⟩
      intro hmem
      exact hns ((hseen _).mp hmem)

/-- A name ending in ".001" is its (dot-split) base followed by ".001". -/
lemma ends001_eq {p : Path} (h : s001 <:+ p) : p = rsplitPre sDot p ++ s001 := by
  obtain ⟨q, hq⟩ := h
  rw [← hq, rsplitPre_dot001]

/-- Every base recorded by the 7z loop contains ".7z". -/
lemma seenBase_has7z {fs : List Path} {b : Path} (h : seenBase fs b) : s7z <:+: b := by
  obtain ⟨g, _, hdot, h001, hbase⟩ := h
  have hg : g = b ++ s001 := by rw [ends001_eq h001, hbase]
  exact has7z_of_dotted001 (hg ▸ hdot)

/-- A name matched by `*.z[0-9][0-9]` is a base followed by ".z" and two
digits. -/
lemma globZdd_shape {f : Path} (h : globZdd f = true) :
    ∃ B d1 d2, f = B ++ ['.', 'z', d1, d2] ∧ d1.isDigit = true ∧ d2.isDigit = true := by
  unfold globZdd at h
  rcases hr : f.reverse with _ | ⟨d2, _ | ⟨d1, _ | ⟨z, _ | ⟨dot, r⟩⟩⟩⟩ <;>
    rw [hr] at h <;> simp only [Bool.and_eq_true, beq_iff_eq] at h
  · cases h
  · cases h
  · cases h
  · cases h
  · obtain ⟨⟨⟨hdot, hz⟩, h1⟩, h2⟩ := h
    refine ⟨r.reverse, d1, d2, ?_, h1, h2⟩
    rw [← f.reverse_reverse, hr, hdot, hz]
    simp

/-- Conversely a base plus ".z" and two digits matches `*.z[0-9][0-9]`. -/
lemma globZdd_of_shape (B : Path) {d1 d2 : Char} (h1 : d1.isDigit = true)
    (h2 : d2.isDigit = true) :
    globZdd (B ++ ['.', 'z', d1, d2]) = true := by
  unfold globZdd
  have hr : (B ++ ['.', 'z', d1, d2]).reverse = d2 :: d1 :: 'z' :: '.' :: B.reverse := by
    simp [List.reverse_append]
  rw [hr]
  simp [h1, h2]

/-- Inversion of the per-base choice of the multi-volume ZIP loop. -/
lemma zChoice_eq_some {fs : List Path} {B p : Path} (h : zChoice fs B = some p) :
    (p = B ++ sZip ∧ (B ++ sZip) ∈ fs) ∨
      (p = B ++ sZ01 ∧ (B ++ sZ01) ∈ fs ∧ (B ++ sZip) ∉ fs) := by
  unfold zChoice at h
  by_cases h2 : (B ++ sZip) ∈ fs
  · rw [if_pos h2] at h
    injection h with h3
    exact Or.inl ⟨h3.symm, h2⟩
  · rw [if_neg h2] at h
    by_cases h3 : (B ++ sZ01) ∈ fs
    · rw [if_pos h3] at h
      injection h with h4
      exact Or.inr ⟨h4.symm, h3, h2⟩
    · rw [if_neg h3] at h
      cases h

/-- Discovery only returns names that exist on disk. -/
lemma find_archives_subset {fs : List Path} {p : Path} (h : p ∈ find_archives fs) : p ∈ fs := by
  rcases (mem_find_archives fs p).mp h with ⟨h1, _⟩ | ⟨h1, _⟩ | ⟨f, _, _, _, hch⟩
  · exact h1
  · exact h1
  · rcases zChoice_eq_some hch with ⟨rfl, h2⟩ | ⟨rfl, h2, _⟩
    · exact h2
    · exact h2

/-! ### The claims about discovery (C1, C2, C3) -/

/-- C1 (amended): discovery returns the ".001" fragment of a split-7z set
when that fragment is present, and returns no other fragment of the set: any
returned name that is a base followed by a dot and a nonempty numeric tail
has tail exactly "001".  (As frozen the claim fails: a set whose smallest
numeric suffix is not ".001" yields no representative at all, see
`c1_counterexample`.) -/
theorem c1_split7z_first_volume (fs : List Path) (B : Path)
    (hdot : s7zDot <:+: (B ++ s001)) :
    ((B ++ s001) ∈ fs → (B ++ s001) ∈ find_archives fs) ∧
    (∀ t : Path, t ≠ [] → t.all Char.isDigit = true → s7zDot <:+: (B ++ '.' :: t) →
      (B ++ '.' :: t) ∈ find_archives fs → t = ['0', '0', '1']) := by
  constructor
  · intro hmem
    exact (mem_find_archives fs _).mpr
      (Or.inl ⟨hmem, has7z_of_dotted hdot, fun _ => List.suffix_append _ _⟩)
  · intro t hne hdig hdott hmem
    rcases (mem_find_archives fs _).mp hmem with ⟨_, _, hC⟩ | ⟨_, hzip⟩ | ⟨f, _, _, _, hch⟩
    · have h001 := hC hdott
      obtain ⟨q, hq⟩ := h001
      have hq' : B ++ '.' :: t = q ++ ['.', '0', '0', '1'] := hq.symm
      exact (dot_digits_eq4 hne hdig hq' (by decide) (by decide)).2
    · exact absurd hzip (digits_not_zip_suffix hne hdig)
    · rcases zChoice_eq_some hch with ⟨hp, _⟩ | ⟨hp, _, _⟩
      · have hsuf : sZip <:+ (B ++ '.' :: t) := by
          rw [hp]
          exact List.suffix_append _ _
        exact absurd hsuf (digits_not_zip_suffix hne hdig)
      · have hp' : B ++ '.' :: t = rsplitPre sDotZ f ++ ['.', 'z', '0', '1'] := hp
        have h4 := dot_digits_eq4 hne hdig hp' (by decide) (by decide)
        have hz : 'z' ∈ t := by
          rw [h4.2]
          simp
        exact (not_digit_mem hdig (by decide) hz).elim

/-- C1 witness: in a directory with a.7z.001 and a.7z.002, the first volume
is discovered. -/
theorem c1_split7z_first_volume_witness :
    (['a', '.', '7', 'z'] ++ s001) ∈
      find_archives [['a', '.', '7', 'z'] ++ s001, ['a', '.', '7', 'z', '.', '0', '0', '2']] :=
  (c1_split7z_first_volume _ _ (by decide)).1 (by decide)

/-- C1 counterexample: the split set {a.7z.002, a.7z.003} (first volume
missing) has lexicographically smallest numeric suffix ".002", but discovery
returns no representative at all — not "exactly one" as claimed. -/
theorem c1_counterexample :
    find_archives
      [['a', '.', '7', 'z', '.', '0', '0', '2'], ['a', '.', '7', 'z', '.', '0', '0', '3']] = ∅ := by
  decide

/-- C2 (amended): for a multi-volume ZIP set whose base name does not contain
".7z": when the terminal base.zip exists on disk it is returned and no
fragment base.zNN is; when it does not and base.z01 exists, base.z01 is
returned and it is the only returned fragment of the set.  (As frozen the
claim fails for bases containing ".7z", see `c2_counterexample`.) -/
theorem c2_multivolume_zip_selection (fs : List Path) (B : Path) (hB : ¬ s7z <:+: B) :
    ((B ++ sZip) ∈ fs →
      (B ++ sZip) ∈ find_archives fs ∧
      ∀ d1 d2 : Char, d1.isDigit = true → d2.isDigit = true →
        (B ++ ['.', 'z', d1, d2]) ∉ find_archives fs) ∧
    ((B ++ sZip) ∉ fs → (B ++ sZ01) ∈ fs →
      (B ++ sZ01) ∈ find_archives fs ∧
      ∀ d1 d2 : Char, d1.isDigit = true → d2.isDigit = true →
        (B ++ ['.', 'z', d1, d2]) ∈ find_archives fs → d1 = '0' ∧ d2 = '1') := by
  constructor
  · intro hzipmem
    constructor
    · exact (mem_find_archives fs _).mpr (Or.inr (Or.inl ⟨hzipmem, List.suffix_append _ _⟩))
    · intro d1 d2 h1 h2 hmem
      rcases (mem_find_archives fs _).mp hmem with ⟨_, h7, _⟩ | ⟨_, hz⟩ | ⟨f, _, _, _, hch⟩
      · exact not7z_zdd hB h7
      · exact zdd_not_zip_suffix h2 hz
      · rcases zChoice_eq_some hch with ⟨hp, _⟩ | ⟨hp, _, hznot⟩
        · have hsuf : sZip <:+ (B ++ ['.', 'z', d1, d2]) := by
            rw [hp]
            exact List.suffix_append _ _
          exact zdd_not_zip_suffix h2 hsuf
        · have hp' : B ++ ['.', 'z', d1, d2] = rsplitPre sDotZ f ++ ['.', 'z', '0', '1'] := hp
          have h4 := List.append_inj' hp' rfl
          rw [← h4.1] at hznot
          exact hznot hzipmem
  · intro hzipnot hz01
    constructor
    · refine (mem_find_archives fs _).mpr (Or.inr (Or.inr ⟨B ++ sZ01, hz01, ?_, ?_, ?_⟩))
      · exact globZdd_of_shape B (by decide) (by decide)
      · rw [show (sZ01 : Path) = ['.', 'z', '0', '1'] from rfl,
          rsplitPre_zdd B (by decide) (by decide)]
        intro hsb
        exact hB (seenBase_has7z hsb)
      · rw [show (sZ01 : Path) = ['.', 'z', '0', '1'] from rfl,
          rsplitPre_zdd B (by decide) (by decide)]
        unfold zChoice
        rw [if_neg hzipnot, if_pos hz01]
        rfl
    · intro d1 d2 h1 h2 hmem
      rcases (mem_find_archives fs _).mp hmem with ⟨_, h7, _⟩ | ⟨_, hz⟩ | ⟨f, _, _, _, hch⟩
      · exact absurd h7 (not7z_zdd hB)
      · exact absurd hz (zdd_not_zip_suffix h2)
      · rcases zChoice_eq_some hch with ⟨hp, _⟩ | ⟨hp, _, _⟩
        · have hsuf : sZip <:+ (B ++ ['.', 'z', d1, d2]) := by
            rw [hp]
            exact List.suffix_append _ _
          exact absurd hsuf (zdd_not_zip_suffix h2)
        · have hp' : B ++ ['.', 'z', d1, d2] = rsplitPre sDotZ f ++ ['.', 'z', '0', '1'] := hp
          have h4 := List.append_inj' hp' rfl
          have ht := h4.2
          simp only [List.cons.injEq, and_true] at ht
          exact ⟨ht.2.2.1, ht.2.2.2⟩

/-- C2 witness: with a.zip and a.z01 on disk, a.zip is discovered. -/
theorem c2_multivolume_zip_selection_witness :
    (['a'] ++ sZip) ∈ find_archives [['a'] ++ sZip, ['a'] ++ sZ01] :=
  ((c2_multivolume_zip_selection _ ['a'] (by decide)).1 (by decide)).1

/-- C2 counterexample: in {a.7z.001, a.7z.z01} the multi-volume ZIP set of
base "a.7z" has only fragments and no terminal zip, so the claim requires
a.7z.z01 to be returned; the code skips it (its base was claimed by the 7z
loop) and returns only a.7z.001. -/
theorem c2_counterexample :
    ['a', '.', '7', 'z', '.', 'z', '0', '1'] ∉
      find_archives
        [['a', '.', '7', 'z', '.', '0', '0', '1'], ['a', '.', '7', 'z', '.', 'z', '0', '1']] := by
  decide

/-- The name `p` is a volume (bears a volume suffix) with base name `B`:
either `B` plus a dot and a nonempty numeric tail (7z style), or `B` plus
".z" and two digits (ZIP style). -/
def volBase (B p : Path) : Prop :=
  (∃ t : Path, p = B ++ '.' :: t ∧ t ≠ [] ∧ t.all Char.isDigit = true) ∨
  (∃ d1 d2 : Char, d1.isDigit = true ∧ d2.isDigit = true ∧ p = B ++ ['.', 'z', d1, d2])

/-- C3 (amended): among the volume-suffixed names discovery returns, each
base name not containing ".7z" is represented at most once (any such result
is forced to be base.z01).  (As frozen — at most one ArchivePath per base
over the whole result — the claim fails when a plain archive's full name
coincides with a split set's base, see `c3_counterexample`.) -/
theorem c3_base_name_uniqueness (fs : List Path) (B : Path) (hB : ¬ s7z <:+: B) :
    ∀ p q, p ∈ find_archives fs → q ∈ find_archives fs → volBase B p → volBase B q → p = q := by
  suffices h : ∀ p, p ∈ find_archives fs → volBase B p → p = B ++ sZ01 by
    intro p q hp hq hvp hvq
    rw [h p hp hvp, h q hq hvq]
  intro p hp hv
  rcases hv with ⟨t, rfl, hne, hdig⟩ | ⟨d1, d2, h1, h2, rfl⟩
  · rcases (mem_find_archives fs _).mp hp with ⟨_, h7, _⟩ | ⟨_, hz⟩ | ⟨f, _, _, _, hch⟩
    · exact absurd h7 (not7z_dot_digits hB hdig)
    · exact absurd hz (digits_not_zip_suffix hne hdig)
    · rcases zChoice_eq_some hch with ⟨hpz, _⟩ | ⟨hpz, _, _⟩
      · have hsuf : sZip <:+ (B ++ '.' :: t) := by
          rw [hpz]
          exact List.suffix_append _ _
        exact absurd hsuf (digits_not_zip_suffix hne hdig)
      · have hpz' : B ++ '.' :: t = rsplitPre sDotZ f ++ ['.', 'z', '0', '1'] := hpz
        have h4 := dot_digits_eq4 hne hdig hpz' (by decide) (by decide)
        have hzmem : 'z' ∈ t := by
          rw [h4.2]
          simp
        exact (not_digit_mem hdig (by decide) hzmem).elim
  · rcases (mem_find_archives fs _).mp hp with ⟨_, h7, _⟩ | ⟨_, hz⟩ | ⟨f, _, _, _, hch⟩
    · exact absurd h7 (not7z_zdd hB)
    · exact absurd hz (zdd_not_zip_suffix h2)
    · rcases zChoice_eq_some hch with ⟨hpz, _⟩ | ⟨hpz, _, _⟩
      · have hsuf : sZip <:+ (B ++ ['.', 'z', d1, d2]) := by
          rw [hpz]
          exact List.suffix_append _ _
        exact absurd hsuf (zdd_not_zip_suffix h2)
      · have hpz' : B ++ ['.', 'z', d1, d2] = rsplitPre sDotZ f ++ ['.', 'z', '0', '1'] := hpz
        have h4 := List.append_inj' hpz' rfl
        rw [show (sZ01 : Path) = ['.', 'z', '0', '1'] from rfl, h4.2]

/-- C3 witness: with only the set {a.z01, a.z02}, the volume-suffixed
results for base "a" coincide. -/
theorem c3_base_name_uniqueness_witness : (['a'] ++ sZ01 : Path) = ['a'] ++ sZ01 :=
  c3_base_name_uniqueness [['a'] ++ sZ01, ['a', '.', 'z', '0', '2']] ['a'] (by decide)
    (['a'] ++ sZ01) (['a'] ++ sZ01) (by decide) (by decide)
    (Or.inr ⟨'0', '1', by decide, by decide, rfl⟩) (Or.inr ⟨'0', '1', by decide, by decide, rfl⟩)

/-- C3 counterexample: with {a.7z, a.7z.001} on disk, discovery returns both
names; the base name of a.7z.001 (volume suffix stripped) is a.7z, and the
plain a.7z bears no volume suffix so it is its own base name — one base name
yields two ArchivePaths. -/
theorem c3_counterexample :
    ['a', '.', '7', 'z'] ∈
        find_archives [['a', '.', '7', 'z'], ['a', '.', '7', 'z', '.', '0', '0', '1']] ∧
    ['a', '.', '7', 'z', '.', '0', '0', '1'] ∈
        find_archives [['a', '.', '7', 'z'], ['a', '.', '7', 'z', '.', '0', '0', '1']] ∧
    rsplitPre sDot ['a', '.', '7', 'z', '.', '0', '0', '1'] = ['a', '.', '7', 'z'] ∧
    ['a', '.', '7', 'z'] ≠ ['a', '.', '7', 'z', '.', '0', '0', '1'] := by
  refine ⟨by decide, by decide, by decide, by decide⟩

/-! ### The claims about the verifier and the exit code (C4-C10) -/

/-- The batch loop is a pair of filters of the iterated list. -/
lemma runBatch_eq (e : Env) (l : List Path) :
    runBatch e l =
      (l.filter (fun a => test_archive e a), l.filter (fun a => !test_archive e a)) := by
  have hgo : ∀ (l : List Path) (p f : List Path),
      l.foldl (fun res a =>
          if test_archive e a then (res.1 ++ [a], res.2) else (res.1, res.2 ++ [a])) (p, f) =
        (p ++ l.filter (fun a => test_archive e a),
          f ++ l.filter (fun a => !test_archive e a)) := by
    intro l
    induction l with
    | nil =>
      intro p f
      simp
    | cons a l ih =>
      intro p f
      by_cases h : test_archive e a
      · simp [h, ih, List.filter_cons]
      · simp [h, ih, List.filter_cons]
  simpa [runBatch] using hgo l [] []

/-- A list splits between a filter and the complementary filter. -/
lemma filter_length_split (e : Env) (l : List Path) :
    (l.filter (fun a => test_archive e a)).length +
      (l.filter (fun a => !test_archive e a)).length = l.length := by
  induction l with
  | nil => rfl
  | cons a l ih =>
    by_cases h : test_archive e a <;> simp [List.filter_cons, h] <;> omega

/-- Every iterated archive lands in exactly one of the two lists. -/
lemma runBatch_length (e : Env) (l : List Path) :
    (runBatch e l).1.length + (runBatch e l).2.length = l.length := by
  rw [runBatch_eq]
  exact filter_length_split e l

/-- C4 (amended): for a plain-7z name (not multi-volume, not ".zip", name
contains ".7z") the verifier runs the embedded decoder (py7zr) first and
returns its verdict, but a format error (Bad7zFile) — like any other decoder
exception — maps directly to failure with no fallback to the external tool;
the fallback described by the spec exists only in the ZIP branch. -/
theorem c4_plain7z_no_fallback (e : Env) (p : Path)
    (hmv : (is_multivolume_7z p || is_multivolume_zip e p) = false)
    (hnz : ¬ sZip <:+ pyLower p) (h7 : s7z <:+: pyLower p) :
    (∀ r, e.sevenTest p = .ok r → test_archive e p = r.isNone) ∧
    (e.sevenTest p = .badFile → test_archive e p = false) ∧
    (e.sevenTest p = .err → test_archive e p = false) := by
  have hval : test_archive e p =
      (match e.sevenTest p with
        | .ok firstBad => firstBad.isNone
        | .badFile => false
        | .err => false) := by
    unfold test_archive
    rw [if_neg (by simp [hmv]), if_neg hnz, if_pos h7]
  refine ⟨?_, ?_, ?_⟩
  · intro r hr
    rw [hval, hr]
  · intro hr
    rw [hval, hr]
  · intro hr
    rw [hval, hr]

/-- The concrete system for the C4 counterexample and witness: the tool is
installed and would report success, but py7zr raises Bad7zFile. -/
def envC4 : Env :=
  { files := []
    which7z := some ['7', 'z']
    run7z := fun _ _ _ => .exited 0
    zipTest := fun _ => .ok none
    sevenTest := fun _ => .badFile }

/-- C4 witness: the decoder's format error on a.7z yields failure. -/
theorem c4_plain7z_no_fallback_witness :
    test_archive envC4 (['a'] ++ s7z) = false :=
  (c4_plain7z_no_fallback envC4 (['a'] ++ s7z) (by decide) (by decide) (by decide)).2.1 rfl

/-- C4 counterexample: py7zr raises the format error on plain a.7z while the
external tool is available and would report success; the claimed fallback
would make test_archive succeed, but the code returns failure without
invoking the tool. -/
theorem c4_counterexample :
    envC4.sevenTest (['a'] ++ s7z) = .badFile ∧
    is_7z_available envC4 = true ∧
    test_archive_with_7z envC4 (['a'] ++ s7z) = true ∧
    test_archive envC4 (['a'] ++ s7z) = false := by
  refine ⟨rfl, rfl, by decide, by decide⟩

/-- C5 (confirmed): the exit code is 0 or 1, and it is 0 exactly when the
directory argument is valid and either no archives were discovered or every
discovered archive passes test_archive. -/
theorem c5_exit_code (w : World) (r : Bool) :
    (main w r = 0 ∨ main w r = 1) ∧
    (main w r = 0 ↔ w.isDir = true ∧
      (find_archives w.env.files = ∅ ∨
        ∀ p ∈ find_archives w.env.files, test_archive w.env p = true)) := by
  unfold main
  by_cases hd : w.isDir
  · rw [if_neg (by simp [hd])]
    by_cases he : find_archives w.env.files = ∅
    · rw [if_pos he]
      exact ⟨Or.inl rfl, fun _ => ⟨hd, Or.inl he⟩, fun _ => rfl⟩
    · rw [if_neg he]
      have hfail : (runBatch w.env ((find_archives w.env.files).sort (· ≤ ·))).2 = [] ↔
          ∀ p ∈ find_archives w.env.files, test_archive w.env p = true := by
        rw [runBatch_eq]
        rw [List.filter_eq_nil_iff]
        constructor
        · intro h p hp
          have := h p ((Finset.mem_sort _).mpr hp)
          simpa using this
        · intro h p hp
          simp [h p ((Finset.mem_sort _).mp hp)]
      by_cases hf : (runBatch w.env ((find_archives w.env.files).sort (· ≤ ·))).2 = []
      · rw [if_neg (not_not_intro hf)]
        exact ⟨Or.inl rfl, fun _ => ⟨hd, Or.inr (hfail.mp hf)⟩, fun _ => rfl⟩
      · rw [if_pos hf]
        refine ⟨Or.inr rfl, ?_, ?_⟩
        · intro h
          exact absurd h (by decide)
        · rintro ⟨_, he' | hall⟩
          · exact absurd he' he
          · exact absurd (hfail.mpr hall) hf
  · rw [if_pos (by simp [hd])]
    refine ⟨Or.inr rfl, ?_, ?_⟩
    · intro h
      exact absurd h (by decide)
    · rintro ⟨hd', _⟩
      exact absurd hd' hd

/-- A world with a valid empty directory, for the C5 witness. -/
def worldC5 : World :=
  { isDir := true
    env := { files := []
             which7z := none
             run7z := fun _ _ _ => .exited 0
             zipTest := fun _ => .ok none
             sevenTest := fun _ => .ok none } }

/-- C5 witness: a valid directory with no archives exits 0. -/
theorem c5_exit_code_witness : main worldC5 false = 0 :=
  (c5_exit_code worldC5 false).2.mpr ⟨rfl, Or.inl (by decide)⟩

/-- C6 (amended): when the (lowercased) name ends in ".zip" or ".z01" and
some sibling `base_path p ++ ".zNN"` (NN = 01..99) exists on disk — where
base_path deletes every occurrence of ".zip" and ".z01" from the original
name — the verifier treats the archive as split ZIP and returns the external
tool's verdict (failure when the tool is absent), never consulting the
embedded decoder.  (As frozen, with basename meaning the name minus its
final extension, the claim fails, see `c6_counterexample`.) -/
theorem c6_splitzip_external_dispatch (e : Env) (p : Path)
    (hsuf : sZip <:+ pyLower p ∨ sZ01 <:+ pyLower p)
    (hsib : ∃ i ∈ List.range' 1 99, (base_path p ++ zTag i) ∈ e.files) :
    test_archive e p = (if is_7z_available e then test_archive_with_7z e p else false) := by
  have hmz : is_multivolume_zip e p = true := by
    unfold is_multivolume_zip
    simp only [Bool.and_eq_true, Bool.or_eq_true, decide_eq_true_eq, List.any_eq_true]
    obtain ⟨i, hi, hmem⟩ := hsib
    exact ⟨hsuf, i, hi, hmem⟩
  unfold test_archive
  rw [if_pos (show (is_multivolume_7z p || is_multivolume_zip e p) = true by simp [hmz])]

/-- The concrete system for the C6 counterexample: on disk are the archive
"a.zip.zip" (say) and its sibling "a.zip.z01"; the tool would report
failure, the embedded zipfile decoder reports success. -/
def envC6 : Env :=
  { files := [['a', '.', 'z', 'i', 'p', '.', 'z', '0', '1']]
    which7z := some ['7', 'z']
    run7z := fun _ _ _ => .exited 1
    zipTest := fun _ => .ok none
    sevenTest := fun _ => .ok none }

/-- C6 counterexample: the path "a.zip.zip" ends in ".zip" and the sibling
"a.zip.z01" (the claim's basename "a.zip" plus ".z01") exists on disk, so
the claim demands external-tool dispatch, whose verdict here is failure;
but base_path deletes BOTH ".zip" occurrences, the probe scans "a.z01" ..
"a.z99" and misses, and the code classifies the path as plain ZIP and
returns the embedded decoder's success. -/
theorem c6_counterexample :
    sZip <:+ pyLower ['a', '.', 'z', 'i', 'p', '.', 'z', 'i', 'p'] ∧
    (['a', '.', 'z', 'i', 'p'] ++ sZ01) ∈ envC6.files ∧
    test_archive_with_7z envC6 ['a', '.', 'z', 'i', 'p', '.', 'z', 'i', 'p'] = false ∧
    test_archive envC6 ['a', '.', 'z', 'i', 'p', '.', 'z', 'i', 'p'] = true := by
  refine ⟨by decide, by decide, by decide, by decide⟩

/-- A system with a lone first volume a.z01 and no tool, for the C6
witness. -/
def envC6w : Env :=
  { files := [['a', '.', 'z', '0', '1']]
    which7z := none
    run7z := fun _ _ _ => .exited 0
    zipTest := fun _ => .ok none
    sevenTest := fun _ => .ok none }

/-- C6 witness: a.z01 with its sibling present dispatches to the external
path (here: tool absent, so failure). -/
theorem c6_splitzip_external_dispatch_witness :
    test_archive envC6w ['a', '.', 'z', '0', '1'] =
      (if is_7z_available envC6w then test_archive_with_7z envC6w ['a', '.', 'z', '0', '1']
        else false) :=
  c6_splitzip_external_dispatch envC6w ['a', '.', 'z', '0', '1'] (Or.inr (by decide))
    ⟨1, by decide, by decide⟩

/-- C7 (confirmed): the external check succeeds exactly when a tool command
is resolved and its test subcommand, run with the 300-second (5-minute)
timeout, exits with code 0; in particular any non-zero exit code fails, and
a timeout fails. -/
theorem c7_tool_exit_code_mapping (e : Env) (p : Path) :
    (test_archive_with_7z e p = true ↔
      ∃ cmd, e.which7z = some cmd ∧ e.run7z cmd p 300 = .exited 0) ∧
    (∀ cmd, e.which7z = some cmd → e.run7z cmd p 300 = .timeout →
      test_archive_with_7z e p = false) := by
  cases hw : e.which7z with
  | none =>
    have hv : test_archive_with_7z e p = false := by
      unfold test_archive_with_7z
      rw [hw]
    refine ⟨⟨fun h => ?_, fun h => ?_⟩, ?_⟩
    · rw [hv] at h
      cases h
    · obtain ⟨cmd, hc, _⟩ := h
      cases hc
    · intro cmd hc _
      cases hc
  | some cmd =>
    have hv : test_archive_with_7z e p =
        (match e.run7z cmd p 300 with
          | .exited code => code == 0
          | .timeout => false
          | .err => false) := by
      unfold test_archive_with_7z
      rw [hw]
    refine ⟨⟨fun h => ?_, fun h => ?_⟩, ?_⟩
    · rw [hv] at h
      cases hr : e.run7z cmd p 300 with
      | exited code =>
        refine ⟨cmd, rfl, ?_⟩
        rw [hr] at h
        have hc0 : code = 0 := by simpa using h
        rw [hr, hc0]
      | timeout =>
        rw [hr] at h
        cases h
      | err =>
        rw [hr] at h
        cases h
    · obtain ⟨cmd', hc, hr⟩ := h
      injection hc with hcc
      rw [hv, hcc, hr]
      rfl
    · intro cmd' hc hto
      injection hc with hcc
      rw [hv, hcc, hto]

/-- A system whose tool always exits 0, for the C7 witness. -/
def envC7 : Env :=
  { files := []
    which7z := some ['7', 'z']
    run7z := fun _ _ _ => .exited 0
    zipTest := fun _ => .ok none
    sevenTest := fun _ => .ok none }

/-- C7 witness: exit code 0 maps to success. -/
theorem c7_tool_exit_code_mapping_witness : test_archive_with_7z envC7 ['a'] = true :=
  (c7_tool_exit_code_mapping envC7 ['a']).1.mpr ⟨['7', 'z'], rfl, rfl⟩

/-- C8 (confirmed): when no external tool is resolved, a multi-volume
archive (7z split volume or sibling-probed ZIP) yields failure without any
decoder or tool being consulted — test_archive is a total function, so no
exception can escape — and the batch loop still classifies every archive of
the run into passed or failed. -/
theorem c8_split_without_tool_unverifiable (e : Env) (p : Path) (l : List Path)
    (hnone : e.which7z = none)
    (hmv : (is_multivolume_7z p || is_multivolume_zip e p) = true) :
    test_archive e p = false ∧
    (runBatch e l).1.length + (runBatch e l).2.length = l.length := by
  refine ⟨?_, runBatch_length e l⟩
  unfold test_archive
  rw [if_pos hmv]
  have hav : is_7z_available e = false := by
    unfold is_7z_available
    rw [hnone]
    rfl
  rw [if_neg (by simp [hav])]

/-- A toolless system, for the C8 witness. -/
def envC8 : Env :=
  { files := []
    which7z := none
    run7z := fun _ _ _ => .exited 0
    zipTest := fun _ => .ok none
    sevenTest := fun _ => .ok none }

/-- C8 witness: a.7z.001 without the tool yields failure. -/
theorem c8_split_without_tool_unverifiable_witness :
    test_archive envC8 ['a', '.', '7', 'z', '.', '0', '0', '1'] = false :=
  (c8_split_without_tool_unverifiable envC8 ['a', '.', '7', 'z', '.', '0', '0', '1'] [] rfl
    (by decide)).1

/-- C9 (confirmed): the --recursive flag is parsed but never read, so the
program's behavior — discovery and exit code alike — is the same function of
the directory with or without it. -/
theorem c9_recursive_flag_ignored (w : World) (r1 r2 : Bool) : main w r1 = main w r2 := rfl

/-- C10 (amended): test_archive is a total Bool-valued function (the Python
wraps every fallible call in try/except): unknown formats return False; 7z
decoder format errors and other exceptions return False; subprocess timeouts
and errors make the external check return False, as does an unresolved tool;
but a ZIP decode failure (BadZipFile or other exception) falls back to the
external tool when one is available and yields that tool's verdict — which
may be True, so not every decode failure returns False (see
`c10_counterexample`). -/
theorem c10_total_no_exception (e : Env) (p : Path) :
    (test_archive e p = true ∨ test_archive e p = false) ∧
    ((is_multivolume_7z p || is_multivolume_zip e p) = false → ¬ sZip <:+ pyLower p →
      ¬ s7z <:+: pyLower p → test_archive e p = false) ∧
    ((is_multivolume_7z p || is_multivolume_zip e p) = false → ¬ sZip <:+ pyLower p →
      s7z <:+: pyLower p → (e.sevenTest p = .badFile ∨ e.sevenTest p = .err) →
      test_archive e p = false) ∧
    ((is_multivolume_7z p || is_multivolume_zip e p) = false → sZip <:+ pyLower p →
      (e.zipTest p = .badFile ∨ e.zipTest p = .err) →
      test_archive e p = (if is_7z_available e then test_archive_with_7z e p else false)) ∧
    (e.which7z = none → test_archive_with_7z e p = false) ∧
    (∀ cmd, e.which7z = some cmd →
      (e.run7z cmd p 300 = .timeout ∨ e.run7z cmd p 300 = .err) →
      test_archive_with_7z e p = false) := by
  refine ⟨?_, ?_, ?_, ?_, ?_, ?_⟩
  · cases h : test_archive e p
    · exact Or.inr rfl
    · exact Or.inl rfl
  · intro hmv hnz hn7
    unfold test_archive
    rw [if_neg (by simp [hmv]), if_neg hnz, if_neg hn7]
  · intro hmv hnz h7 hbad
    unfold test_archive
    rw [if_neg (by simp [hmv]), if_neg hnz, if_pos h7]
    rcases hbad with hb | hb <;> rw [hb]
  · intro hmv hz hbad
    unfold test_archive
    rw [if_neg (by simp [hmv]), if_pos hz]
    rcases hbad with hb | hb <;> rw [hb]
  · intro hnone
    unfold test_archive_with_7z
    rw [hnone]
  · intro cmd hc hto
    unfold test_archive_with_7z
    rw [hc]
    show (match e.run7z cmd p 300 with
      | SubprocResult.exited code => code == 0
      | SubprocResult.timeout => false
      | SubprocResult.err => false) = false
    rcases hto with ht | ht <;> rw [ht]

/-- The concrete system for the C10 counterexample and witness: zipfile
raises BadZipFile but the available tool exits 0. -/
def envC10 : Env :=
  { files := []
    which7z := some ['7', 'z']
    run7z := fun _ _ _ => .exited 0
    zipTest := fun _ => .badFile
    sevenTest := fun _ => .err }

/-- C10 witness: an unknown format returns False. -/
theorem c10_total_no_exception_witness : test_archive envC10 ['a'] = false :=
  (c10_total_no_exception envC10 ['a']).2.1 (by decide) (by decide) (by decide)

/-- C10 counterexample: on a.zip the embedded decoder raises BadZipFile (a
decode failure), yet test_archive returns True — the fallback to the
available external tool succeeds — contradicting "decode failures all
result in a returned False". -/
theorem c10_counterexample :
    envC10.zipTest (['a'] ++ sZip) = .badFile ∧
    test_archive envC10 (['a'] ++ sZip) = true := by
  refine ⟨rfl, by decide⟩

end CheckZip
